import Mathlib

/-!
Verification of the ac_complex reduction-tree sample
(DirectProgramming/C++SYCL_FPGA/Tutorials/Features/ac_complex_agilex5_dsp).

The program multiplies a batch of N = 2^K complex fixed-point values with a
balanced binary reduction tree.  Each value is an ac_complex whose real and
imaginary parts are signed two's-complement integers; in the kernel every
intermediate is stored in the terminal type OutputT whose part width is
OutputWidth = BitWidthAtLayer NumInputsLog2 bits, so every assignment wraps
each part into that width.  We embed the arithmetic over unbounded integers
with an explicit two's-complement wrap at every store, mirroring assignment
to an ac_int of width w.
-/

/-- Two's-complement reduction of an integer into w bits: the unique value
congruent to x modulo 2 ^ w lying in the interval from -2 ^ (w-1)
(inclusive) to 2 ^ (w-1) (exclusive).  This is what assigning a wide value
to an ac_int of width w (signed) does. -/
def wrapSigned (w : ℕ) (x : ℤ) : ℤ :=
  (x + 2 ^ (w - 1)) % 2 ^ w - 2 ^ (w - 1)

/-- A complex value whose parts are (unbounded) integers; the bit width of
the C++ type is tracked by the wrap applied at each store. -/
structure AcComplex where
  r : ℤ
  i : ℤ
deriving DecidableEq

/-- Complex multiplication as ac_complex performs it:
real = r1*r2 - i1*i2, imag = r1*i2 + i1*r2, in full precision. -/
def AcComplex.mul (a b : AcComplex) : AcComplex :=
  ⟨a.r * b.r - a.i * b.i, a.r * b.i + a.i * b.r⟩

/-- Componentwise two's-complement wrap into w bits: conversion of a wide
ac_complex value to ac_complex of part width w. -/
def AcComplex.wrap (w : ℕ) (a : AcComplex) : AcComplex :=
  ⟨wrapSigned w a.r, wrapSigned w a.i⟩

/-- The multiplicative identity 1 + 0i (used to state full products). -/
def AcComplex.one : AcComplex := ⟨1, 0⟩

/-- Both parts representable in w signed bits, i.e. in the interval from
-2 ^ (w-1) (inclusive) to 2 ^ (w-1) (exclusive). -/
def AcComplex.inRange (w : ℕ) (a : AcComplex) : Prop :=
  -2 ^ (w - 1) ≤ a.r ∧ a.r < 2 ^ (w - 1) ∧ -2 ^ (w - 1) ≤ a.i ∧ a.i < 2 ^ (w - 1)

instance (w : ℕ) (a : AcComplex) : Decidable (a.inRange w) := by
  unfold AcComplex.inRange; infer_instance

/- Compile-time constants of the source. -/

/-- constexpr int InputWidth = 8. -/
def InputWidth : ℕ := 8

/-- constexpr int NumInputsLog2 = 3. -/
def NumInputsLog2 : ℕ := 3

/-- constexpr int NumInputs = 1 shifted left by NumInputsLog2. -/
def NumInputs : ℕ := 1 <<< NumInputsLog2

/-- constexpr int OutputWidthOfMul(int inputWidth): inputWidth*2 + 1. -/
def OutputWidthOfMul (inputWidth : ℕ) : ℕ := inputWidth * 2 + 1

/-- constexpr int BitWidthAtLayer(int layer): (InputWidth + 1)*layer + InputWidth. -/
def BitWidthAtLayer (layer : ℕ) : ℕ := (InputWidth + 1) * layer + InputWidth

/-- constexpr int ElementsInLayer(int layer): NumInputs / (1 shifted left by layer). -/
def ElementsInLayer (layer : ℕ) : ℕ := NumInputs / (1 <<< layer)

/-- constexpr int OutputWidth = BitWidthAtLayer(NumInputsLog2). -/
def OutputWidth : ℕ := BitWidthAtLayer NumInputsLog2

/-- ElementsInLayer generalized over the batch-size exponent K; the source
instantiates K = NumInputsLog2. -/
def ElementsInLayerG (K layer : ℕ) : ℕ := (1 <<< K) / (1 <<< layer)

/-- The trace of indices passed to the action by Unroller Begin End step:
the primary template invokes the action at Begin and recurses at Begin + 1;
the specialization at Begin = End invokes nothing.  (Instantiations with
Begin greater than End do not compile in the source; the guard makes the
Lean function total, returning the empty trace there.) -/
def Unroller.stepIndices (b e : ℤ) : List ℤ :=
  if h : b < e then b :: Unroller.stepIndices (b + 1) e else []
termination_by (e - b).toNat
decreasing_by
  simp_wf
  omega

/-- The unrolled inner loop of one layer of the kernel, executed on the
single buffer prevBuffer: for i = 0 .. pairs-1 in increasing order,
prevBuffer[i] = prevBuffer[2*i] * prevBuffer[2*i+1], each store wrapping
into the part width w of OutputT.  The argument counts the iterations
already performed, so pairLoop w buf p is the buffer after iterations
0 .. p-1. -/
def pairLoop (w : ℕ) (buf : ℕ → AcComplex) : ℕ → ℕ → AcComplex
  | 0 => buf
  | p + 1 => fun j =>
      if j = p then
        ((pairLoop w buf p (2 * p)).mul (pairLoop w buf p (2 * p + 1))).wrap w
      else
        pairLoop w buf p j

/-- The layer loop of the kernel: Unroller 0 K step runs the pair loop for
layers l = 0 .. K-1 in order; at layer l the pair count is
ElementsInLayerG K l / 2 (layerElts / 2 in the source).  The argument is
the number of layers already executed. -/
def mult_layers (w K : ℕ) : ℕ → (ℕ → AcComplex) → ℕ → AcComplex
  | 0, buf => buf
  | l + 1, buf => pairLoop w (mult_layers w K l buf) (ElementsInLayerG K l / 2)

/-- The body of the single_task kernel in test_mult: load the inputs into
prevBuffer (stored as OutputT, part width w), run the K layers, return
prevBuffer[0].  Generic in w and K; the source instantiates
w = OutputWidth and K = NumInputsLog2. -/
def mult_kernel (w K : ℕ) (x : ℕ → AcComplex) : AcComplex :=
  mult_layers w K K (fun j => (x j).wrap w) 0

/-- void test_mult(queue, in, out): asserts in.size() == NumInputs before
any computation (modelled as returning none), then runs the kernel on the
input sequence and returns the single result. -/
def test_mult (input : List AcComplex) : Option AcComplex :=
  if input.length = NumInputs then
    some (mult_kernel OutputWidth NumInputsLog2 fun j => input.getD j ⟨0, 0⟩)
  else
    none

/-- The input vector of main(). -/
def testInputs : List AcComplex :=
  [⟨10, 20⟩, ⟨5, 10⟩, ⟨-20, 20⟩, ⟨20, 4⟩, ⟨24, 3⟩, ⟨4, 3⟩, ⟨56, 2⟩, ⟨34, 24⟩]

/- Specification-side definitions, for statements that compare the kernel
with full-precision mathematics. -/

/-- The full-precision value at position j of layer l of the reduction
tree: layer 0 holds the inputs, and layer l+1 pairs adjacent elements of
layer l, with no wrapping anywhere.  These are the intermediate values of
the reduction computed in exact arithmetic. -/
def exactLayer (x : ℕ → AcComplex) : ℕ → ℕ → AcComplex
  | 0 => x
  | l + 1 => fun j => (exactLayer x l (2 * j)).mul (exactLayer x l (2 * j + 1))

/-- Modelled from the spec: the two-array formulation of the reduction,
which builds a fresh WorkingArray per layer; position j of
WorkingArray(l+1) is WorkingArray(l)[2*j] * WorkingArray(l)[2*j+1], each
store wrapping into the part width w. -/
def workingArray (w : ℕ) (x : ℕ → AcComplex) : ℕ → ℕ → AcComplex
  | 0 => fun j => (x j).wrap w
  | l + 1 => fun j =>
      ((workingArray w x l (2 * j)).mul (workingArray w x l (2 * j + 1))).wrap w

/-- Full-precision product of the n values x a, x (a+1), ..., x (a+n-1),
multiplied left to right. -/
def prodFn (x : ℕ → AcComplex) : ℕ → ℕ → AcComplex
  | _, 0 => AcComplex.one
  | a, n + 1 => (x a).mul (prodFn x (a + 1) n)

/-- Full-precision product of a list of complex values. -/
def listCProd (xs : List AcComplex) : AcComplex :=
  xs.foldr AcComplex.mul AcComplex.one

/- Arithmetic facts about the two's-complement wrap. -/

/-- wrapSigned w x is congruent to x modulo 2 ^ w. -/
lemma wrapSigned_modEq (w : ℕ) (x : ℤ) : wrapSigned w x ≡ x [ZMOD (2 : ℤ) ^ w] := by
  unfold Int.ModEq wrapSigned
  rw [Int.sub_emod, Int.emod_emod_of_dvd _ dvd_rfl, ← Int.sub_emod,
    add_sub_cancel_right]

/-- wrapSigned w maps congruent integers to the same value. -/
lemma wrapSigned_congr (w : ℕ) (x y : ℤ) (hxy : x ≡ y [ZMOD (2 : ℤ) ^ w]) :
    wrapSigned w x = wrapSigned w y := by
  have h2 : (x + 2 ^ (w - 1)) % 2 ^ w = (y + 2 ^ (w - 1)) % 2 ^ w :=
    hxy.add_right (2 ^ (w - 1))
  unfold wrapSigned
  rw [h2]

/-- wrapSigned w is the identity on values already representable in w
signed bits (for positive w). -/
lemma wrapSigned_eq_self (w : ℕ) (hw : 1 ≤ w) (x : ℤ)
    (h1 : -2 ^ (w - 1) ≤ x) (h2 : x < 2 ^ (w - 1)) : wrapSigned w x = x := by
  unfold wrapSigned
  have hm : (2 : ℤ) ^ w = 2 ^ (w - 1) * 2 := by
    rw [← pow_succ]
    congr 1
    omega
  rw [Int.emod_eq_of_lt (by linarith) (by linarith), add_sub_cancel_right]

/-- Wrapping the factors of a complex multiplication and wrapping the
result gives the same value as wrapping the exact product. -/
lemma AcComplex.wrap_mul_wrap (w : ℕ) (a b : AcComplex) :
    (((a.wrap w).mul (b.wrap w)).wrap w) = ((a.mul b).wrap w) := by
  have hr : ((a.wrap w).mul (b.wrap w)).r ≡ (a.mul b).r [ZMOD (2 : ℤ) ^ w] :=
    ((wrapSigned_modEq w a.r).mul (wrapSigned_modEq w b.r)).sub
      ((wrapSigned_modEq w a.i).mul (wrapSigned_modEq w b.i))
  have hi : ((a.wrap w).mul (b.wrap w)).i ≡ (a.mul b).i [ZMOD (2 : ℤ) ^ w] :=
    ((wrapSigned_modEq w a.r).mul (wrapSigned_modEq w b.i)).add
      ((wrapSigned_modEq w a.i).mul (wrapSigned_modEq w b.r))
  show AcComplex.mk _ _ = AcComplex.mk _ _
  rw [AcComplex.mk.injEq]
  exact ⟨wrapSigned_congr w _ _ hr, wrapSigned_congr w _ _ hi⟩

/-- Wrapping a value already in range is the identity. -/
lemma AcComplex.wrap_eq_self (w : ℕ) (hw : 1 ≤ w) (a : AcComplex)
    (h : a.inRange w) : a.wrap w = a := by
  obtain ⟨h1, h2, h3, h4⟩ := h
  unfold AcComplex.wrap
  rw [wrapSigned_eq_self w hw _ h1 h2, wrapSigned_eq_self w hw _ h3 h4]

/-- One is a left identity for AcComplex multiplication. -/
lemma AcComplex.one_mul (a : AcComplex) : AcComplex.one.mul a = a := by
  cases a
  simp [AcComplex.one, AcComplex.mul]

/-- One is a right identity for AcComplex multiplication. -/
lemma AcComplex.mul_one (a : AcComplex) : a.mul AcComplex.one = a := by
  cases a
  simp [AcComplex.one, AcComplex.mul]

/-- AcComplex multiplication is associative. -/
lemma AcComplex.mul_assoc (a b c : AcComplex) :
    (a.mul b).mul c = a.mul (b.mul c) := by
  cases a; cases b; cases c
  simp only [AcComplex.mul, AcComplex.mk.injEq]
  constructor <;> ring

/- Structural facts about the kernel. -/

/-- Write-safety of the in-place inner loop: iteration i writes cell i and
reads cells 2*i and 2*i+1, which no earlier iteration of the same layer has
written, so after p iterations cell j holds the pairwise product of the
original cells 2*j and 2*j+1 when j is below p, and its original value
otherwise. -/
lemma pairLoop_eq (w : ℕ) (buf : ℕ → AcComplex) (p j : ℕ) :
    pairLoop w buf p j =
      if j < p then ((buf (2 * j)).mul (buf (2 * j + 1))).wrap w else buf j := by
  induction p generalizing j with
  | zero => simp [pairLoop]
  | succ p ih =>
    have h2p : pairLoop w buf p (2 * p) = buf (2 * p) := by
      rw [ih]
      rw [if_neg (by omega)]
    have h2p1 : pairLoop w buf p (2 * p + 1) = buf (2 * p + 1) := by
      rw [ih]
      rw [if_neg (by omega)]
    by_cases hj : j = p
    · subst hj
      simp only [pairLoop, if_pos rfl, h2p, h2p1]
      rw [if_pos (Nat.lt_succ_self j)]
      simp
    · simp only [pairLoop, if_neg hj]
      rw [ih]
      by_cases hjp : j < p
      · rw [if_pos hjp, if_pos (by omega)]
      · rw [if_neg hjp, if_neg (by omega)]

/-- The pair count of layer l is 2 ^ (K - l - 1) when l is below K. -/
lemma elementsG_div_two (K l : ℕ) (hl : l < K) :
    ElementsInLayerG K l / 2 = 2 ^ (K - (l + 1)) := by
  unfold ElementsInLayerG
  rw [Nat.shiftLeft_eq, Nat.shiftLeft_eq, one_mul, one_mul,
    Nat.pow_div (by omega) (by omega)]
  have hpow : K - l = (K - (l + 1)) + 1 := by omega
  rw [hpow, pow_succ, Nat.mul_div_cancel _ (by omega)]

/-- The single-buffer kernel agrees with the fresh-array-per-layer
formulation on the live prefix of every layer. -/
lemma mult_layers_eq (w K : ℕ) (x : ℕ → AcComplex) :
    ∀ l, l ≤ K → ∀ j, j < 2 ^ (K - l) →
      mult_layers w K l (fun n => (x n).wrap w) j = workingArray w x l j := by
  intro l
  induction l with
  | zero => intro _ j _; rfl
  | succ l ih =>
    intro hl j hj
    have hlK : l ≤ K := by omega
    have hpow : K - l = (K - (l + 1)) + 1 := by omega
    have hsucc : (2 : ℕ) ^ (K - l) = 2 ^ (K - (l + 1)) * 2 := by
      rw [hpow, pow_succ]
    have h2j : 2 * j < 2 ^ (K - l) := by omega
    have h2j1 : 2 * j + 1 < 2 ^ (K - l) := by omega
    simp only [mult_layers]
    rw [pairLoop_eq, elementsG_div_two K l (by omega), if_pos hj,
      ih hlK _ h2j, ih hlK _ h2j1]
    simp only [workingArray]

/-- Each cell of the wrapped fresh-array reduction is the wrap of the
corresponding full-precision intermediate value. -/
lemma workingArray_eq_exact (w : ℕ) (x : ℕ → AcComplex) :
    ∀ l j, workingArray w x l j = (exactLayer x l j).wrap w := by
  intro l
  induction l with
  | zero => intro j; rfl
  | succ l ih =>
    intro j
    simp only [workingArray, exactLayer]
    rw [ih, ih, AcComplex.wrap_mul_wrap]

/-- Splitting a full-precision product of m + n consecutive values. -/
lemma prodFn_add (x : ℕ → AcComplex) (m : ℕ) :
    ∀ a n, prodFn x a (m + n) = (prodFn x a m).mul (prodFn x (a + m) n) := by
  induction m with
  | zero => intro a n; simp [prodFn, AcComplex.one_mul]
  | succ m ih =>
    intro a n
    have hmn : m + 1 + n = (m + n) + 1 := by omega
    rw [hmn]
    show (x a).mul (prodFn x (a + 1) (m + n)) = _
    rw [ih (a + 1) n]
    rw [← AcComplex.mul_assoc]
    show (prodFn x a (m + 1)).mul (prodFn x (a + 1 + m) n) = _
    have : a + 1 + m = a + (m + 1) := by omega
    rw [this]

/-- The full-precision value at position j of layer l is the product of
the 2 ^ l consecutive inputs of block j. -/
lemma exactLayer_eq_prod (x : ℕ → AcComplex) :
    ∀ l j, exactLayer x l j = prodFn x (j * 2 ^ l) (2 ^ l) := by
  intro l
  induction l with
  | zero => intro j; simp [exactLayer, prodFn, AcComplex.mul_one]
  | succ l ih =>
    intro j
    have hsplit : (2 : ℕ) ^ (l + 1) = 2 ^ l + 2 ^ l := by
      rw [pow_succ]; omega
    have e1 : 2 * j * 2 ^ l = j * (2 ^ l + 2 ^ l) := by ring
    have e2 : (2 * j + 1) * 2 ^ l = j * (2 ^ l + 2 ^ l) + 2 ^ l := by ring
    simp only [exactLayer]
    rw [ih (2 * j), ih (2 * j + 1), hsplit, prodFn_add, e1, e2]

/-- The kernel result is the two's-complement wrap, into the storage
width, of the full-precision product of the 2 ^ K inputs. -/
lemma mult_kernel_eq_wrap (w K : ℕ) (x : ℕ → AcComplex) :
    mult_kernel w K x = (prodFn x 0 (2 ^ K)).wrap w := by
  unfold mult_kernel
  rw [mult_layers_eq w K x K le_rfl 0 (by simp), workingArray_eq_exact,
    exactLayer_eq_prod]
  simp

/- The Unroller trace. -/

/-- The Unroller trace from b to e lists the integers from b upward, one
per remaining step. -/
lemma stepIndices_eq_range (n : ℕ) :
    ∀ b e : ℤ, (e - b).toNat = n →
      Unroller.stepIndices b e = (List.range n).map (fun k : ℕ => b + (k : ℤ)) := by
  induction n with
  | zero =>
    intro b e h
    rw [Unroller.stepIndices, dif_neg (by omega)]
    simp
  | succ n ih =>
    intro b e h
    have hbe : b < e := by omega
    rw [Unroller.stepIndices, dif_pos hbe, ih (b + 1) e (by omega),
      List.range_succ_eq_map, List.map_cons, List.map_map]
    congr 1
    · simp
    · congr 1
      funext k
      simp only [Function.comp_apply, Nat.succ_eq_add_one]
      push_cast
      ring

/- Bridging function products and list products. -/

/-- Shifting the start index of a product over a list with a head. -/
lemma prodFn_getD_cons (d a : AcComplex) (t : List AcComplex) :
    ∀ n k, prodFn (fun j => (a :: t).getD j d) (k + 1) n =
      prodFn (fun j => t.getD j d) k n := by
  intro n
  induction n with
  | zero => intro k; rfl
  | succ n ih =>
    intro k
    show ((a :: t).getD (k + 1) d).mul _ = (t.getD k d).mul _
    rw [List.getD_cons_succ, ih (k + 1)]

/-- The function product over the whole index range of a list is the list
product. -/
lemma prodFn_getD (d : AcComplex) :
    ∀ input : List AcComplex,
      prodFn (fun j => input.getD j d) 0 input.length = listCProd input := by
  intro input
  induction input with
  | nil => rfl
  | cons a t ih =>
    show ((a :: t).getD 0 d).mul
        (prodFn (fun j => (a :: t).getD j d) (0 + 1) t.length) = _
    rw [List.getD_cons_zero, prodFn_getD_cons, ih]
    rfl

/- Bounds for products of w-bit values. -/

/-- A product of two integers bounded by n in absolute value is bounded by
n squared. -/
lemma mul_bound (n a b : ℤ) (ha1 : -n ≤ a) (ha2 : a < n) (hb1 : -n ≤ b)
    (hb2 : b < n) : -(n * n) ≤ a * b ∧ a * b ≤ n * n := by
  constructor <;> nlinarith

/-- A product of two values representable in 8 signed bits is
representable in 17 signed bits. -/
lemma mul_inRange17 (a b : AcComplex) (ha : a.inRange 8) (hb : b.inRange 8) :
    (a.mul b).inRange 17 := by
  obtain ⟨ha1, ha2, ha3, ha4⟩ := ha
  obtain ⟨hb1, hb2, hb3, hb4⟩ := hb
  norm_num at ha1 ha2 ha3 ha4 hb1 hb2 hb3 hb4
  have hrr := mul_bound 128 a.r b.r ha1 ha2 hb1 hb2
  have hii := mul_bound 128 a.i b.i ha3 ha4 hb3 hb4
  have hri := mul_bound 128 a.r b.i ha1 ha2 hb3 hb4
  have hir := mul_bound 128 a.i b.r ha3 ha4 hb1 hb2
  simp only [AcComplex.inRange, AcComplex.mul]
  norm_num
  refine ⟨by linarith [hrr.1, hrr.2, hii.1, hii.2],
    by linarith [hrr.1, hrr.2, hii.1, hii.2],
    by linarith [hri.1, hri.2, hir.1, hir.2],
    by linarith [hri.1, hri.2, hir.1, hir.2]⟩

/- The claims. -/

/-- C1: for every batch of N = 2 ^ K inputs (K at least 1, so N a power of
two at least 2) whose parts are InputWidth-bit signed integers, if no
intermediate value of the reduction overflows the representation it is
stored in (part width BitWidthAtLayer K), then the kernel result equals
the full-precision mathematical product of the N inputs. -/
theorem c1_associative_correctness (K : ℕ) (hK : 1 ≤ K) (x : ℕ → AcComplex)
    (hinput : ∀ j, j < 2 ^ K → (x j).inRange InputWidth)
    (hnoverflow : ∀ l, l ≤ K → ∀ j, j < 2 ^ (K - l) →
      (exactLayer x l j).inRange (BitWidthAtLayer K)) :
    mult_kernel (BitWidthAtLayer K) K x = prodFn x 0 (2 ^ K) := by
  rw [mult_kernel_eq_wrap]
  have hfin := hnoverflow K le_rfl 0 (by simp)
  rw [exactLayer_eq_prod] at hfin
  simp only [zero_mul] at hfin
  exact AcComplex.wrap_eq_self _ (by unfold BitWidthAtLayer InputWidth; omega) _ hfin

/-- C1 witness: the theorem applied at K = 1 to the inputs 1 and i, whose
product is i. -/
theorem c1_witness :
    mult_kernel (BitWidthAtLayer 1) 1
        (fun j => if j = 0 then ⟨1, 0⟩ else ⟨0, 1⟩) =
      prodFn (fun j => if j = 0 then ⟨1, 0⟩ else ⟨0, 1⟩) 0 (2 ^ 1) :=
  c1_associative_correctness 1 (by decide) _ (by decide) (by decide)

/-- C2 counterexample: with every input at the extreme -128 - 128i of the
InputWidth-bit signed range, the intermediate value at layer 2 of the
reduction is -2 ^ 30 + 0i, which does not fit the layer-2 computed width
BitWidthAtLayer 2 = 26. -/
theorem c2_counterexample :
    ¬ (exactLayer (fun _ => ⟨-128, -128⟩) 2 0).inRange (BitWidthAtLayer 2) := by
  decide

/-- C2 (amended): for all inputs whose parts lie in the InputWidth-bit
signed range (in particular at its extremes), every layer-1 intermediate
product fits the layer-1 computed width BitWidthAtLayer 1 = 17 without
truncation; the original guarantee for every layer fails from layer 2 on.
-/
theorem c2_layer1_no_overflow (x : ℕ → AcComplex)
    (hin : ∀ j, (x j).inRange InputWidth) (j : ℕ) :
    (exactLayer x 1 j).inRange (BitWidthAtLayer 1) := by
  have h17 : BitWidthAtLayer 1 = 17 := rfl
  have h8 : InputWidth = 8 := rfl
  rw [h17]
  show ((x (2 * j)).mul (x (2 * j + 1))).inRange 17
  exact mul_inRange17 _ _ (h8 ▸ hin (2 * j)) (h8 ▸ hin (2 * j + 1))

/-- C2 witness: the amended theorem applied to the constant input
-128 + 127i, whose parts sit at the two extremes of the 8-bit range. -/
theorem c2_witness :
    (exactLayer (fun _ => ⟨-128, 127⟩) 1 0).inRange (BitWidthAtLayer 1) :=
  c2_layer1_no_overflow _ (fun _ => by decide) 0

/-- C3 counterexample: the claimed identity fails at layer 1: the computed
width at layer 2 is 26, but one more than twice the layer-1 width is 35. -/
theorem c3_counterexample :
    BitWidthAtLayer (1 + 1) ≠ OutputWidthOfMul (BitWidthAtLayer 1) := by
  decide

/-- C3 (amended): BitWidthAtLayer is the closed form of the recurrence
with additive step InputWidth + 1 (the width at layer 0 is InputWidth and
each layer adds InputWidth + 1); it satisfies the doubling recurrence
claimed, with step OutputWidthOfMul w = 2 w + 1, only at layer 0. -/
theorem c3_width_closed_form (l : ℕ) :
    BitWidthAtLayer 0 = InputWidth ∧
    BitWidthAtLayer (l + 1) = BitWidthAtLayer l + (InputWidth + 1) ∧
    (BitWidthAtLayer (l + 1) = OutputWidthOfMul (BitWidthAtLayer l) ↔ l = 0) := by
  unfold BitWidthAtLayer OutputWidthOfMul InputWidth
  omega

/-- C4: on the inputs of main(), the kernel returns
6122885632 - 3942432000i, the OutputWidth-bit two's-complement wrap of the
full-precision product 40482624000 - 3942432000i, and not the expected
value 1313 + 2016i hard-coded in main(), so the sample's own check fails.
-/
theorem c4_actual_output :
    test_mult testInputs = some ⟨6122885632, -3942432000⟩ ∧
    test_mult testInputs ≠ some ⟨1313, 2016⟩ ∧
    listCProd testInputs = ⟨40482624000, -3942432000⟩ := by
  refine ⟨by decide, by decide, by decide⟩

/-- C5: the Unroller invokes its action once per index Begin, Begin + 1,
..., End - 1 in strictly increasing order, i.e. exactly
max (0, End - Begin) times, and performs zero invocations when
Begin = End. -/
theorem c5_unroller_coverage (b e : ℤ) :
    Unroller.stepIndices b e =
      (List.range (e - b).toNat).map (fun k : ℕ => b + (k : ℤ)) ∧
    ((Unroller.stepIndices b e).length : ℤ) = max 0 (e - b) ∧
    Unroller.stepIndices e e = [] := by
  have h := stepIndices_eq_range (e - b).toNat b e rfl
  refine ⟨h, ?_, ?_⟩
  · rw [h, List.length_map, List.length_range]
    omega
  · rw [Unroller.stepIndices, dif_neg (lt_irrefl e)]

/-- C6: for every layer below K = NumInputsLog2, the width at the next
layer is strictly greater, exceeding the width at the layer by exactly
InputWidth + 1. -/
theorem c6_width_monotonicity (layer : ℕ) (h : layer < NumInputsLog2) :
    BitWidthAtLayer (layer + 1) = BitWidthAtLayer layer + (InputWidth + 1) ∧
    BitWidthAtLayer layer < BitWidthAtLayer (layer + 1) := by
  unfold BitWidthAtLayer InputWidth
  omega

/-- C6 witness: the theorem at layer 0. -/
theorem c6_witness :
    BitWidthAtLayer (0 + 1) = BitWidthAtLayer 0 + (InputWidth + 1) ∧
    BitWidthAtLayer 0 < BitWidthAtLayer (0 + 1) :=
  c6_width_monotonicity 0 (by decide)

/-- C7: ElementsInLayer layer = NumInputs / 2 ^ layer, the element count
halves from each layer to the next, and at the terminal layer
K = NumInputsLog2 exactly one element remains. -/
theorem c7_element_halving (layer : ℕ) :
    ElementsInLayer layer = NumInputs / 2 ^ layer ∧
    ElementsInLayer (layer + 1) = ElementsInLayer layer / 2 ∧
    ElementsInLayer NumInputsLog2 = 1 := by
  have h : ∀ l : ℕ, ElementsInLayer l = NumInputs / 2 ^ l := by
    intro l
    unfold ElementsInLayer
    rw [Nat.shiftLeft_eq, one_mul]
  refine ⟨h layer, ?_, by decide⟩
  rw [h (layer + 1), h layer, Nat.div_div_eq_div_mul, ← pow_succ]

/-- C8: NumInputs is a power of two by construction, and a call with an
input sequence whose length differs from NumInputs is rejected by the
assertion before the reduction runs: no result is computed, so nothing is
truncated or padded. -/
theorem c8_precondition_rejection :
    NumInputs = 2 ^ NumInputsLog2 ∧
    ∀ input : List AcComplex,
      input.length ≠ NumInputs → test_mult input = none := by
  refine ⟨by decide, ?_⟩
  intro input h
  unfold test_mult
  rw [if_neg h]

/-- C8 witness: the empty input sequence has length 0, not NumInputs, and
is rejected. -/
theorem c8_witness :
    ([] : List AcComplex).length ≠ NumInputs ∧ test_mult [] = none := by
  have h : ([] : List AcComplex).length ≠ NumInputs := by decide
  exact ⟨h, c8_precondition_rejection.2 [] h⟩

/-- C9: the in-place single-buffer reduction is write-safe: within a
layer, cell i is written only after both its reads 2 i and 2 i + 1 of the
previous layer have happened, so the kernel computes the same result as
the formulation that builds a fresh working array per layer. -/
theorem c9_inplace_refines_two_array (w K : ℕ) (x : ℕ → AcComplex) :
    mult_kernel w K x = workingArray w x K 0 :=
  mult_layers_eq w K x K le_rfl 0 (by simp)

/-- C10: every intermediate of the kernel is stored and multiplied in the
terminal part width OutputWidth, and the returned result is exactly the
full-precision product of the inputs reduced into OutputWidth-bit
two's complement (modulo 2 ^ OutputWidth with sign wrap). -/
theorem c10_wrapped_product (input : List AcComplex)
    (h : input.length = NumInputs) :
    test_mult input = some ((listCProd input).wrap OutputWidth) := by
  unfold test_mult
  rw [if_pos h, mult_kernel_eq_wrap]
  have h2 : (2 : ℕ) ^ NumInputsLog2 = input.length := by
    rw [h]
    decide
  rw [h2, prodFn_getD]

/-- C10 witness: the theorem at the inputs of main(). -/
theorem c10_witness :
    test_mult testInputs = some ((listCProd testInputs).wrap OutputWidth) :=
  c10_wrapped_product testInputs (by decide)
